import Mathlib

/-!
Verification of the durable asynchronous job queue and worker subsystem of
the Evaluation Planner backend (server.js), against its design document.

The embedding below translates the relevant parts of server.js:
* the jobs table rows (db/schema.sql) as the structure Job;
* JSON request payloads as the inductive JSValue, with JavaScript
  truthiness and property access (numbers are modelled as integers:
  every numeric value the queue touches, such as max_tokens and
  timestamps in milliseconds, is integral);
* the SQL statements issued by server.js as pure functions on lists
  of Job rows;
* the background processor processNextJob as (a) a retry loop over an
  oracle of attempt outcomes and (b) a small-step multi-worker system
  modelling the claim transaction (BEGIN / SELECT ... FOR UPDATE SKIP
  LOCKED / UPDATE / COMMIT) with explicit row locks, so that claims by
  concurrently running workers can be interleaved arbitrarily.
-/

set_option linter.unusedVariables false

namespace EvalPlanner

/-- JavaScript-like values as carried in JSON request bodies and in the
jobs table's jsonb input_data column. -/
inductive JSValue where
  | undefined
  | null
  | bool (b : Bool)
  | num (n : Int)
  | str (s : String)
  | arr (xs : List JSValue)
  | obj (fields : List (String × JSValue))

/-- JavaScript truthiness: undefined, null, false, 0 and the empty string
are falsy; every other value (including an empty array or object) is
truthy. -/
def truthy : JSValue → Bool
  | .undefined => false
  | .null => false
  | .bool b => b
  | .num n => decide (n ≠ 0)
  | .str s => decide (s ≠ "")
  | .arr _ => true
  | .obj _ => true

/-- The JavaScript typeof operator (typeof null is "object", as is
typeof of any array or object). -/
def jsTypeof : JSValue → String
  | .undefined => "undefined"
  | .null => "object"
  | .bool _ => "boolean"
  | .num _ => "number"
  | .str _ => "string"
  | .arr _ => "object"
  | .obj _ => "object"

/-- JavaScript property access v.k: the field's value when v is an object
that has the field, undefined otherwise. -/
def jget : JSValue → String → JSValue
  | .obj fields, k =>
    match fields.find? (fun p => p.1 == k) with
    | some p => p.2
    | none => .undefined
  | _, _ => .undefined

/-- The four-valued status enum of the jobs table (db/schema.sql,
jobs_status_chk). -/
inductive Status where
  | pending
  | processing
  | completed
  | failed
deriving DecidableEq, Repr

/-- One row of the jobs table (db/schema.sql).  Timestamps are integers
(milliseconds); nullable columns are Options. -/
structure Job where
  id : Nat
  job_type : String
  status : Status
  input_data : JSValue
  result_data : Option String
  error : Option String
  created_at : Int
  completed_at : Option Int

/-- UPDATE jobs SET status = st WHERE id = jid (the claim transaction's
second statement, server.js:487-490). -/
def setStatus (jid : Nat) (st : Status) (jobs : List Job) : List Job :=
  jobs.map (fun j => if j.id = jid then { j with status := st } else j)

/-- The worker's completion update (server.js:571-576):
UPDATE jobs SET status = 'completed', result_data = r,
completed_at = CURRENT_TIMESTAMP WHERE id = jid.
Note that the WHERE clause tests only the id: the update carries no
status precondition, and a non-matching id simply updates zero rows. -/
def completeUpd (jid : Nat) (r : String) (t : Int) (jobs : List Job) : List Job :=
  jobs.map (fun j =>
    if j.id = jid then
      { j with status := .completed, result_data := some r, completed_at := some t }
    else j)

/-- The worker's failure update (server.js:582-587):
UPDATE jobs SET status = 'failed', error = e,
completed_at = CURRENT_TIMESTAMP WHERE id = jid.
Like completeUpd, it is unconditional on the row's current status. -/
def failUpd (jid : Nat) (e : String) (t : Int) (jobs : List Job) : List Job :=
  jobs.map (fun j =>
    if j.id = jid then
      { j with status := .failed, error := some e, completed_at := some t }
    else j)

/-- SELECT ... WHERE p ORDER BY created_at ASC LIMIT 1: some row with
minimal created_at among the rows satisfying p (the leftmost such row),
or none when no row satisfies p. -/
def selectOldest (p : Job → Bool) : List Job → Option Job
  | [] => none
  | j :: rest =>
    match selectOldest p rest with
    | none => if p j then some j else none
    | some b => if p j && decide (j.created_at ≤ b.created_at) then some j else some b

/-- The claim step of processNextJob (server.js:470-492) viewed as one
atomic store operation (no concurrent transaction holds locks): select
the oldest pending row and flip it to processing; when no pending row
exists the transaction commits without touching any row. -/
def claimNextPending (jobs : List Job) : Option Job × List Job :=
  match selectOldest (fun j => j.status == .pending) jobs with
  | none => (none, jobs)
  | some j => (some j, setStatus j.id .processing jobs)

/-- The retention window of cleanupOldJobs (server.js:613): six hours in
milliseconds. -/
def retentionMs : Int := 6 * 60 * 60 * 1000

/-- The deletion condition of cleanupOldJobs (server.js:615-621):
(status = 'completed' OR status = 'failed') AND completed_at < cutoff.
A NULL completed_at compares as neither smaller nor larger in SQL, so a
row without completed_at is never deleted. -/
def shouldDelete (cutoff : Int) (j : Job) : Bool :=
  (j.status == .completed || j.status == .failed) &&
    (match j.completed_at with
     | some t => decide (t < cutoff)
     | none => false)

/-- cleanupOldJobs (server.js:611-629): computes the cutoff six hours
before now and deletes every row matching shouldDelete, returning the
remaining rows and the count of deleted rows (RETURNING id). -/
def cleanupOldJobs (now : Int) (jobs : List Job) : List Job × Nat :=
  let cutoff := now - retentionMs
  (jobs.filter (fun j => !shouldDelete cutoff j),
   (jobs.filter (fun j => shouldDelete cutoff j)).length)

/-- The persistent store as the whole system sees it: the jobs table, the
next SERIAL id, and the set of job ids currently claimed by some worker's
processNextJob invocation that has not yet recorded an outcome (the
"claimed, processing, outcome pending" window between server.js:492 and
server.js:571/582). -/
structure Store where
  jobs : List Job
  nextId : Nat
  inflight : List Nat

def initStore : Store := ⟨[], 1, []⟩

/-- The row created by POST /api/jobs (server.js:404-409): INSERT INTO
jobs (job_type, status, input_data) VALUES (jt, 'pending', d); SERIAL
assigns the id, created_at defaults to now, the remaining columns are
NULL. -/
def mkJob (id : Nat) (jt : String) (d : JSValue) (t : Int) : Job :=
  ⟨id, jt, .pending, d, none, none, t, none⟩

def insertJob (jt : String) (d : JSValue) (t : Int) (s : Store) : Store :=
  { s with jobs := s.jobs ++ [mkJob s.nextId jt d t], nextId := s.nextId + 1 }

/-- The mutating operations the running system ever applies to the jobs
table, each scoped as in server.js: insert (POST /api/jobs), claim (the
processNextJob transaction), complete / fail (the worker recording the
outcome of a job it has claimed — the worker reaches these updates only
for the job id it selected at server.js:484), and the hourly cleanup. -/
inductive Event where
  | insert (jt : String) (d : JSValue) (t : Int)
  | claim
  | complete (id : Nat) (r : String) (t : Int)
  | fail (id : Nat) (e : String) (t : Int)
  | cleanup (now : Int)

def applyEvent (s : Store) : Event → Store
  | .insert jt d t => insertJob jt d t s
  | .claim =>
    match selectOldest (fun j => j.status == .pending) s.jobs with
    | none => s
    | some j =>
      { s with jobs := setStatus j.id .processing s.jobs,
               inflight := j.id :: s.inflight }
  | .complete id r t =>
    if id ∈ s.inflight then
      { s with jobs := completeUpd id r t s.jobs, inflight := s.inflight.erase id }
    else s
  | .fail id e t =>
    if id ∈ s.inflight then
      { s with jobs := failUpd id e t s.jobs, inflight := s.inflight.erase id }
    else s
  | .cleanup now => { s with jobs := (cleanupOldJobs now s.jobs).1 }

def runEvents (es : List Event) : Store := es.foldl applyEvent initStore

/-- The recognized job types (server.js:392). -/
def validJobTypes : List String := ["prompt1", "prompt2", "report_template"]

/-- Outcome of POST /api/jobs. -/
inductive SubmitResult where
  | badRequest (msg : String)
  | created (job_id : Nat)
deriving DecidableEq, Repr

/-- POST /api/jobs (server.js:382-424), following the handler's checks in
order: both fields present (truthy), job_type among the recognized
strings, input_data of typeof object whose messages field is truthy; only
then is the row inserted with status pending. -/
def submitJob (body : JSValue) (t : Int) (s : Store) : SubmitResult × Store :=
  let job_type := jget body "job_type"
  let input_data := jget body "input_data"
  if !truthy job_type || !truthy input_data then
    (.badRequest "Missing required fields: job_type, input_data", s)
  else
    match job_type with
    | .str jt =>
      if !(validJobTypes.contains jt) then
        (.badRequest "Invalid job_type. Must be: prompt1, prompt2, or report_template", s)
      else if jsTypeof input_data != "object" || !truthy (jget input_data "messages") then
        (.badRequest "Invalid input_data structure. Must include messages array", s)
      else
        (.created s.nextId, insertJob jt input_data t s)
    | _ =>
      (.badRequest "Invalid job_type. Must be: prompt1, prompt2, or report_template", s)

/-- The check ['prompt1', 'prompt2', 'report_template'].includes(v):
true exactly for those three string values (a non-string is never equal
to any of them). -/
def isValidJobType : JSValue → Bool
  | .str jt => validJobTypes.contains jt
  | _ => false

/-- The condition under which POST /api/jobs answers 400 instead of
inserting, written as one flat predicate over the request body. -/
def submitRejects (body : JSValue) : Bool :=
  !truthy (jget body "job_type") || !truthy (jget body "input_data") ||
    !(isValidJobType (jget body "job_type")) ||
    jsTypeof (jget body "input_data") != "object" ||
    !truthy (jget (jget body "input_data") "messages")

/-- The retry budget of the worker's OpenRouter loop
(server.js:525, const maxRetries = 3). -/
def maxRetries : Nat := 3

/-- Backoff before retry number r (server.js:531):
Math.pow(2, retries) * 1000 milliseconds. -/
def retryDelayMs (r : Nat) : Nat := 2 ^ r * 1000

/-- One iteration of the worker's retry loop (server.js:528-566), driven
by an oracle giving the outcome of each try body (indexed by the value of
the retries counter when the attempt is made: 0, 1, 2).  Returns the
loop's outcome (the value of result on break, or the error thrown once
retries reaches maxRetries), the backoff delays awaited, and the list of
attempts made.  Fuel is maxRetries - r, so the loop structurally
terminates exactly as the while condition does. -/
def attemptLoopAux (oracle : Nat → Except String String) :
    Nat → Nat → Except String String × List Nat × List Nat
  | 0, _ => (.error "Unknown error occurred", [], [])
  | fuel + 1, r =>
    let ds := if r > 0 then [retryDelayMs r] else []
    match oracle r with
    | .ok v => (.ok v, ds, [r])
    | .error e =>
      if r + 1 ≥ maxRetries then (.error e, ds, [r])
      else
        let rec' := attemptLoopAux oracle fuel (r + 1)
        (rec'.1, ds ++ rec'.2.1, r :: rec'.2.2)

/-- The worker's complete retry loop, started with retries = 0. -/
def runAttempts (oracle : Nat → Except String String) :
    Except String String × List Nat × List Nat :=
  attemptLoopAux oracle maxRetries 0

/-- What the worker does with the loop's outcome for the job it claimed
(server.js:568-587): success records the result via the completion
update, any error that escapes the loop records the failure update. -/
def processClaimedJob (oracle : Nat → Except String String) (jid : Nat) (t : Int)
    (jobs : List Job) : List Job :=
  match (runAttempts oracle).1 with
  | .ok r => completeUpd jid r t jobs
  | .error e => failUpd jid e t jobs

/-- An upstream HTTP response as the worker sees it: response.ok, the
numeric status, and the body read as text. -/
structure HttpResponse where
  ok : Bool
  status : Nat
  body : String

/-- The empirical floor below which a response body is treated as a
silent truncation (server.js:552 and server.js:268). -/
def minBodyLength : Nat := 500

def truncMsg (n : Nat) : String :=
  s!"Response too short ({n} chars), likely truncated"

/-- The body of one worker attempt after fetch returns
(server.js:545-557): a non-ok status throws, a body shorter than 500
characters throws the truncation error, and only then is the body handed
to JSON.parse and the choices[0].message.content extraction — modelled by
the parse argument, standing for that opaque library call, which may
itself throw. -/
def workerAttempt (parse : String → Except String String) (resp : HttpResponse) :
    Except String String :=
  if !resp.ok then
    .error s!"OpenRouter API error: {resp.status} - {resp.body}"
  else if resp.body.length < minBodyLength then
    .error (truncMsg resp.body.length)
  else
    parse resp.body

/-- How one outbound OpenRouter call is issued: whether an AbortController
signal is attached, and the setTimeout-to-abort delay guarding the call,
when there is one. -/
structure FetchCallConfig where
  url : String
  hasAbortSignal : Bool
  timeoutMs : Option Nat
deriving DecidableEq, Repr

/-- The fetch issued per attempt by the proxy endpoint
POST /api/openrouter/chat/completions (server.js:229-251): an
AbortController is created and a 300000 ms (5 minute) timer aborts the
in-flight call; the signal is passed to fetch. -/
def proxyFetchConfig : FetchCallConfig :=
  { url := "https://openrouter.ai/api/v1/chat/completions"
    hasAbortSignal := true
    timeoutMs := some 300000 }

/-- The fetch issued per attempt by the background worker processNextJob
(server.js:536-543): no AbortController, no signal, no timer of any
kind guards the call. -/
def workerFetchConfig : FetchCallConfig :=
  { url := "https://openrouter.ai/api/v1/chat/completions"
    hasAbortSignal := false
    timeoutMs := none }

/-- The token-budget ceiling the worker sends upstream
(server.js:514): inputData.max_tokens || 4000. -/
def resolveMaxTokens (input_data : JSValue) : JSValue :=
  let m := jget input_data "max_tokens"
  if truthy m then m else .num 4000

/-- Program counter of one worker's claim transaction
(server.js:466-492): before the SELECT; after the SELECT ... FOR UPDATE
SKIP LOCKED; after the UPDATE to processing (not yet visible to other
transactions); after COMMIT. -/
inductive WPC where
  | ready
  | didSelect
  | didUpdate
  | committed
deriving DecidableEq, Repr

/-- One worker's claim transaction: its program counter and the id of
the row its SELECT returned, if any. -/
structure WorkerTxn where
  pc : WPC
  sel : Option Nat
deriving DecidableEq, Repr

/-- The shared database together with every worker process's claim
transaction.  jobs is the committed table state; locks is the set of
(row id, transaction) FOR UPDATE row locks currently held; ws gives each
worker's transaction state (any number of workers, as separate OS
processes, share the store). -/
structure WorkerSys where
  jobs : List Job
  locks : List (Nat × Nat)
  ws : Nat → WorkerTxn

/-- Whether some transaction other than i holds the row lock on jid:
exactly the rows SKIP LOCKED makes transaction i's SELECT pass over. -/
def lockedByOther (locks : List (Nat × Nat)) (i jid : Nat) : Bool :=
  locks.any (fun p => p.1 == jid && p.2 != i)

/-- A row transaction i's SELECT ... FOR UPDATE SKIP LOCKED will
consider: committed status pending, and not locked by another
transaction. -/
def claimEligible (locks : List (Nat × Nat)) (i : Nat) (j : Job) : Bool :=
  j.status == .pending && !lockedByOther locks i j.id

def updWS (ws : Nat → WorkerTxn) (i : Nat) (w : WorkerTxn) : Nat → WorkerTxn :=
  fun k => if k = i then w else ws k

/-- One atomic step of worker i's claim transaction.
ready: the SELECT runs and atomically locks the row it returns (or
returns none, after which the code path commits directly).
didSelect with a row: the UPDATE to processing executes; under READ
COMMITTED it stays invisible to other transactions until COMMIT, so the
shared jobs list is untouched here — other SELECTs are kept away from
the row by its lock, not by the uncommitted write.
didUpdate: COMMIT publishes the status change and releases the
transaction's locks.
didSelect with none: COMMIT (server.js:479-481).
committed: the invocation is over; further steps do nothing. -/
def stepWorker (i : Nat) (s : WorkerSys) : WorkerSys :=
  match (s.ws i).pc with
  | .ready =>
    match selectOldest (claimEligible s.locks i) s.jobs with
    | some j =>
      { s with locks := (j.id, i) :: s.locks,
               ws := updWS s.ws i ⟨.didSelect, some j.id⟩ }
    | none => { s with ws := updWS s.ws i ⟨.didSelect, none⟩ }
  | .didSelect =>
    match (s.ws i).sel with
    | some a => { s with ws := updWS s.ws i ⟨.didUpdate, some a⟩ }
    | none =>
      { s with locks := s.locks.filter (fun p => p.2 != i),
               ws := updWS s.ws i ⟨.committed, none⟩ }
  | .didUpdate =>
    match (s.ws i).sel with
    | some a =>
      { s with jobs := setStatus a .processing s.jobs,
               locks := s.locks.filter (fun p => p.2 != i),
               ws := updWS s.ws i ⟨.committed, some a⟩ }
    | none => s
  | .committed => s

/-- Run the workers under an arbitrary interleaving: the schedule lists,
in order, which worker performs its next atomic step. -/
def runSched (s : WorkerSys) (sched : List Nat) : WorkerSys :=
  sched.foldl (fun t i => stepWorker i t) s

/-- All claim transactions start fresh against the given table, with no
row locks held. -/
def initSys (jobs0 : List Job) : WorkerSys :=
  ⟨jobs0, [], fun _ => ⟨.ready, none⟩⟩

/-- Some row with id a is pending. -/
def pendingRow (jobs : List Job) (a : Nat) : Prop :=
  ∃ j ∈ jobs, j.id = a ∧ j.status = .pending

/-- Some row with id a is processing. -/
def processingRow (jobs : List Job) (a : Nat) : Prop :=
  ∃ j ∈ jobs, j.id = a ∧ j.status = .processing

/-- Transaction i holds no row locks. -/
def ownsNone (locks : List (Nat × Nat)) (i : Nat) : Prop := ∀ p ∈ locks, p.2 ≠ i

/-- Transaction i holds the lock on row a and on no other row. -/
def ownsOnly (locks : List (Nat × Nat)) (i a : Nat) : Prop :=
  (a, i) ∈ locks ∧ ∀ p ∈ locks, p.2 = i → p.1 = a

/-- Per-transaction invariant: what each program counter guarantees
about the selected row and the locks held.  Before the SELECT and after
COMMIT the transaction holds no locks; between SELECT and COMMIT it
holds exactly the lock on the still-pending row it selected; after a
COMMIT that published an update, the selected row is processing. -/
def WInvAux (jobs : List Job) (locks : List (Nat × Nat)) (i : Nat) (w : WorkerTxn) : Prop :=
  (w.pc = .ready → w.sel = none ∧ ownsNone locks i) ∧
  (w.pc = .didSelect → w.sel = none → ownsNone locks i) ∧
  (∀ a, (w.pc = .didSelect ∨ w.pc = .didUpdate) → w.sel = some a →
    pendingRow jobs a ∧ ownsOnly locks i a) ∧
  (w.pc = .didUpdate → w.sel ≠ none) ∧
  (w.pc = .committed → (∀ a, w.sel = some a → processingRow jobs a) ∧ ownsNone locks i)

/-- Global invariant: distinct row ids, each transaction's invariant,
and no two transactions have selected the same row. -/
def SysInv (s : WorkerSys) : Prop :=
  (s.jobs.map Job.id).Nodup ∧
  (∀ i, WInvAux s.jobs s.locks i (s.ws i)) ∧
  (∀ i k a, i ≠ k → (s.ws i).sel = some a → (s.ws k).sel = some a → False)

/-- A transaction that has not selected any row: untouched, or finished
a claim attempt that found nothing. -/
def idleTxn (w : WorkerTxn) : Prop :=
  w = ⟨.ready, none⟩ ∨ w = ⟨.didSelect, none⟩ ∨ w = ⟨.committed, none⟩

/-- Every pending row carries id jid0 (the store holds at most the one
pending job jid0, possibly duplicated — with distinct ids, exactly
one). -/
def onlyPendingIs (jid0 : Nat) (jobs : List Job) : Prop :=
  ∀ j ∈ jobs, j.status = .pending → j.id = jid0

/-- No row is pending. -/
def noPending (jobs : List Job) : Prop := ∀ j ∈ jobs, j.status ≠ .pending

/-- Phase A of the two-claimer race for a single pending row: nobody has
selected anything, the row is still pending and unlocked. -/
def phaseA (jid0 : Nat) (s : WorkerSys) : Prop :=
  (∀ k, s.ws k = ⟨.ready, none⟩) ∧ pendingRow s.jobs jid0 ∧
    onlyPendingIs jid0 s.jobs ∧ s.locks = []

/-- Phase B: claimer i (one of the two workers) has selected and locked
the row; the row is still committed-pending; everyone else is idle. -/
def phaseB (jid0 : Nat) (s : WorkerSys) (i : Nat) : Prop :=
  i < 2 ∧
  (s.ws i = ⟨.didSelect, some jid0⟩ ∨ s.ws i = ⟨.didUpdate, some jid0⟩) ∧
  (∀ k, k ≠ i → idleTxn (s.ws k)) ∧
  pendingRow s.jobs jid0 ∧ onlyPendingIs jid0 s.jobs ∧ s.locks = [(jid0, i)]

/-- Phase C: claimer i has committed; the row is processing, no pending
row remains, all locks are released; everyone else is idle. -/
def phaseC (jid0 : Nat) (s : WorkerSys) (i : Nat) : Prop :=
  i < 2 ∧ s.ws i = ⟨.committed, some jid0⟩ ∧
  (∀ k, k ≠ i → idleTxn (s.ws k)) ∧
  processingRow s.jobs jid0 ∧ noPending s.jobs ∧ s.locks = []

/-- The race invariant for a store holding exactly one pending row:
the system is always in phase A, B or C. -/
def soleClaim (jid0 : Nat) (s : WorkerSys) : Prop :=
  phaseA jid0 s ∨ (∃ i, phaseB jid0 s i) ∨ (∃ i, phaseC jid0 s i)

/-- The column invariant the design document states for one row: a
pending or processing row carries neither result_data nor error; a
completed row carries result_data and no error; a failed row carries
error and no result_data. -/
def JobFieldsOk (j : Job) : Prop :=
  (j.status = .pending → j.result_data = none ∧ j.error = none) ∧
  (j.status = .processing → j.result_data = none ∧ j.error = none) ∧
  (j.status = .completed → (∃ r, j.result_data = some r) ∧ j.error = none) ∧
  (j.status = .failed → (∃ e, j.error = some e) ∧ j.result_data = none)

/-- Global store invariant: SERIAL ids are bounded by nextId and
distinct, the claimed-but-unfinished ids are distinct and all name
processing rows, and every row satisfies the column invariant. -/
def StoreInv (s : Store) : Prop :=
  (∀ j ∈ s.jobs, j.id < s.nextId) ∧
  (s.jobs.map Job.id).Nodup ∧
  s.inflight.Nodup ∧
  (∀ a ∈ s.inflight, ∃ j ∈ s.jobs, j.id = a ∧ j.status = .processing) ∧
  (∀ j ∈ s.jobs, JobFieldsOk j)

/-! ### Theorems -/

theorem setStatus_map_id (jid : Nat) (st : Status) (jobs : List Job) :
    (setStatus jid st jobs).map Job.id = jobs.map Job.id := by
  unfold setStatus
  rw [List.map_map]
  apply List.map_congr_left
  intro b hb
  by_cases h : b.id = jid <;> simp [h]

theorem completeUpd_map_id (jid : Nat) (r : String) (t : Int) (jobs : List Job) :
    (completeUpd jid r t jobs).map Job.id = jobs.map Job.id := by
  unfold completeUpd
  rw [List.map_map]
  apply List.map_congr_left
  intro b hb
  by_cases h : b.id = jid <;> simp [h]

theorem failUpd_map_id (jid : Nat) (e : String) (t : Int) (jobs : List Job) :
    (failUpd jid e t jobs).map Job.id = jobs.map Job.id := by
  unfold failUpd
  rw [List.map_map]
  apply List.map_congr_left
  intro b hb
  by_cases h : b.id = jid <;> simp [h]

theorem selectOldest_eq_some {p : Job → Bool} {l : List Job} {j : Job}
    (h : selectOldest p l = some j) : j ∈ l ∧ p j = true := by
  induction l generalizing j with
  | nil => simp [selectOldest] at h
  | cons a rest ih =>
    rw [selectOldest] at h
    cases hr : selectOldest p rest with
    | none =>
      rw [hr] at h
      dsimp only at h
      by_cases hp : p a = true
      · rw [if_pos hp] at h
        cases h
        exact ⟨List.mem_cons_self _ _, hp⟩
      · rw [if_neg hp] at h
        exact absurd h (by simp)
    | some b =>
      rw [hr] at h
      dsimp only at h
      by_cases hc : (p a && decide (a.created_at ≤ b.created_at)) = true
      · rw [if_pos hc] at h
        cases h
        have hc' : p a = true ∧ a.created_at ≤ b.created_at := by simpa using hc
        exact ⟨List.mem_cons_self _ _, hc'.1⟩
      · rw [if_neg hc] at h
        cases h
        obtain ⟨hbmem, hbp⟩ := ih hr
        exact ⟨List.mem_cons_of_mem _ hbmem, hbp⟩

theorem selectOldest_eq_none {p : Job → Bool} {l : List Job}
    (h : selectOldest p l = none) : ∀ j ∈ l, p j = false := by
  induction l with
  | nil => intro j hj; simp at hj
  | cons a rest ih =>
    rw [selectOldest] at h
    cases hr : selectOldest p rest with
    | none =>
      rw [hr] at h
      dsimp only at h
      intro j hj
      rcases List.mem_cons.mp hj with rfl | hj
      · by_cases hp : p j = true
        · rw [if_pos hp] at h
          exact absurd h (by simp)
        · simpa using hp
      · exact ih hr j hj
    | some b =>
      rw [hr] at h
      dsimp only at h
      by_cases hc : (p a && decide (a.created_at ≤ b.created_at)) = true
      · rw [if_pos hc] at h
        exact absurd h (by simp)
      · rw [if_neg hc] at h
        exact absurd h (by simp)

theorem selectOldest_of_all_false {p : Job → Bool} {l : List Job}
    (h : ∀ j ∈ l, p j = false) : selectOldest p l = none := by
  induction l with
  | nil => rfl
  | cons a rest ih =>
    rw [selectOldest, ih (fun j hj => h j (List.mem_cons_of_mem _ hj))]
    simp [h a (List.mem_cons_self _ _)]

theorem selectOldest_min {p : Job → Bool} {l : List Job} {j : Job}
    (h : selectOldest p l = some j) :
    ∀ b ∈ l, p b = true → j.created_at ≤ b.created_at := by
  induction l generalizing j with
  | nil => simp [selectOldest] at h
  | cons a rest ih =>
    rw [selectOldest] at h
    intro b hb hpb
    cases hr : selectOldest p rest with
    | none =>
      rw [hr] at h
      dsimp only at h
      by_cases hp : p a = true
      · rw [if_pos hp] at h
        cases h
        rcases List.mem_cons.mp hb with rfl | hb
        · exact le_refl _
        · exact absurd (selectOldest_eq_none hr b hb) (by simp [hpb])
      · rw [if_neg hp] at h
        exact absurd h (by simp)
    | some c =>
      rw [hr] at h
      dsimp only at h
      by_cases hc : (p a && decide (a.created_at ≤ c.created_at)) = true
      · rw [if_pos hc] at h
        cases h
        have hc' : p a = true ∧ a.created_at ≤ c.created_at := by simpa using hc
        rcases List.mem_cons.mp hb with rfl | hb
        · exact le_refl _
        · exact le_trans hc'.2 (ih hr b hb hpb)
      · rw [if_neg hc] at h
        cases h
        rcases List.mem_cons.mp hb with rfl | hb
        · by_cases hpa : p b = true
          · have hnle : ¬ (b.created_at ≤ j.created_at) := by
              intro hle
              exact hc (by simp [hpa, hle])
            exact le_of_not_le hnle
          · exact absurd hpb (by simp at hpa; simp [hpa])
        · exact ih hr b hb hpb


theorem shouldDelete_iff (cutoff : Int) (j : Job) :
    shouldDelete cutoff j = true ↔
      (j.status = .completed ∨ j.status = .failed) ∧
        ∃ t, j.completed_at = some t ∧ t < cutoff := by
  unfold shouldDelete
  cases hct : j.completed_at <;> cases hst : j.status <;> simp [hct, hst]

/-- C9: the retention sweep deletes exactly the rows that are terminal
(completed or failed) with completed_at earlier than the six-hour
cutoff; pending and processing rows are kept however old; and an
immediate second sweep with no intervening changes deletes zero rows. -/
theorem cleanup_deletes_exactly_expired (now : Int) (jobs : List Job) :
    (∀ j ∈ jobs, (j.status = .pending ∨ j.status = .processing) →
      j ∈ (cleanupOldJobs now jobs).1) ∧
    (∀ j ∈ jobs, (j.status = .completed ∨ j.status = .failed) →
      ∀ t, j.completed_at = some t → t < now - retentionMs →
        j ∉ (cleanupOldJobs now jobs).1) ∧
    (∀ j ∈ jobs, j ∉ (cleanupOldJobs now jobs).1 →
      (j.status = .completed ∨ j.status = .failed) ∧
        ∃ t, j.completed_at = some t ∧ t < now - retentionMs) ∧
    (cleanupOldJobs now ((cleanupOldJobs now jobs).1)).2 = 0 := by
  refine ⟨?_, ?_, ?_, ?_⟩
  · intro j hj hst
    apply List.mem_filter.mpr
    refine ⟨hj, ?_⟩
    have : shouldDelete (now - retentionMs) j = false := by
      rcases hst with h | h <;> simp [shouldDelete, h]
    simp [this]
  · intro j hj hst t hct hlt hmem
    have hkeep := (List.mem_filter.mp hmem).2
    have : shouldDelete (now - retentionMs) j = true :=
      (shouldDelete_iff _ _).mpr ⟨hst, t, hct, hlt⟩
    simp [this] at hkeep
  · intro j hj hnmem
    by_cases hsd : shouldDelete (now - retentionMs) j = true
    · exact (shouldDelete_iff _ _).mp hsd
    · exact absurd (List.mem_filter.mpr ⟨hj, by simp [eq_false_of_ne_true hsd]⟩) hnmem
  · show ((cleanupOldJobs now jobs).1.filter
      (fun j => shouldDelete (now - retentionMs) j)).length = 0
    simp only [cleanupOldJobs, List.filter_filter]
    simp

/-- Witness for C9 at a concrete store: a stale processing row survives
the sweep, a stale completed row does not, and the immediate second
sweep deletes nothing. -/
theorem cleanup_deletes_exactly_expired_witness :
    (⟨1, "prompt1", .processing, .null, none, none, 0, none⟩ : Job) ∈
      (cleanupOldJobs 100000000
        [⟨1, "prompt1", .processing, .null, none, none, 0, none⟩,
         ⟨2, "prompt1", .completed, .null, some "r", none, 0, some 10⟩]).1 ∧
    (⟨2, "prompt1", .completed, .null, some "r", none, 0, some 10⟩ : Job) ∉
      (cleanupOldJobs 100000000
        [⟨1, "prompt1", .processing, .null, none, none, 0, none⟩,
         ⟨2, "prompt1", .completed, .null, some "r", none, 0, some 10⟩]).1 ∧
    (cleanupOldJobs 100000000
      ((cleanupOldJobs 100000000
        [⟨1, "prompt1", .processing, .null, none, none, 0, none⟩,
         ⟨2, "prompt1", .completed, .null, some "r", none, 0, some 10⟩]).1)).2 = 0 := by
  refine ⟨?_, ?_, ?_⟩
  · exact (cleanup_deletes_exactly_expired 100000000 _).1 _
      (List.mem_cons_self _ _) (Or.inr rfl)
  · exact (cleanup_deletes_exactly_expired 100000000 _).2.1 _
      (List.mem_cons_of_mem _ (List.mem_cons_self _ _)) (Or.inl rfl) 10 rfl (by decide)
  · exact (cleanup_deletes_exactly_expired 100000000 _).2.2.2

/-- C10: the worker's upstream request uses inputData.max_tokens when
that field is truthy and the default ceiling 4000 when the field is
absent or falsy. -/
theorem maxTokens_resolution (d : JSValue) :
    (truthy (jget d "max_tokens") = false → resolveMaxTokens d = .num 4000) ∧
    (truthy (jget d "max_tokens") = true → resolveMaxTokens d = jget d "max_tokens") := by
  constructor <;> intro h <;> simp [resolveMaxTokens, h]

/-- Witness for C10: input_data without max_tokens gets 4000; a truthy
max_tokens of 8000 passes through unchanged. -/
theorem maxTokens_resolution_witness :
    resolveMaxTokens (.obj [("messages", .arr [])]) = .num 4000 ∧
    resolveMaxTokens (.obj [("max_tokens", .num 8000)]) = .num 8000 := by
  constructor
  · exact (maxTokens_resolution _).1 rfl
  · exact ((maxTokens_resolution (.obj [("max_tokens", .num 8000)])).2 rfl).trans rfl

/-- C6 (counterexample): the fetch issued per attempt by the background
worker on behalf of a claimed job carries no abort signal and no timer
at all — in particular it is not guarded by the claimed 5-minute
(300000 ms) timeout. -/
theorem worker_fetch_has_no_timeout :
    workerFetchConfig.timeoutMs ≠ some 300000 ∧
    workerFetchConfig.timeoutMs = none ∧
    workerFetchConfig.hasAbortSignal = false := by
  refine ⟨?_, rfl, rfl⟩
  intro h
  simp [workerFetchConfig] at h

/-- C6 (amended): only the proxy endpoint's attempts run under the
5-minute AbortController timer; the worker's job attempts are issued
with no timeout and are never aborted. -/
theorem per_attempt_timeout_config :
    proxyFetchConfig.timeoutMs = some 300000 ∧
    proxyFetchConfig.hasAbortSignal = true ∧
    workerFetchConfig.timeoutMs = none ∧
    workerFetchConfig.hasAbortSignal = false :=
  ⟨rfl, rfl, rfl, rfl⟩

/-- C7: a response whose body is shorter than 500 characters is turned
into the truncation error even when the HTTP status is a success, and
the retry loop then makes a further attempt rather than accepting it; a
body of length at least 500 is handed on to parsing. -/
theorem short_body_is_retried (parse : String → Except String String)
    (status : Nat) (body : String) :
    (body.length < minBodyLength →
      workerAttempt parse ⟨true, status, body⟩ = .error (truncMsg body.length)) ∧
    (body.length < minBodyLength →
      ∀ oracle : Nat → Except String String,
        oracle 0 = workerAttempt parse ⟨true, status, body⟩ →
        0 ∈ (runAttempts oracle).2.2 ∧ 1 ∈ (runAttempts oracle).2.2) ∧
    (minBodyLength ≤ body.length →
      workerAttempt parse ⟨true, status, body⟩ = parse body) := by
  refine ⟨?_, ?_, ?_⟩
  · intro h
    simp [workerAttempt, h]
  · intro h oracle h0
    have he : oracle 0 = .error (truncMsg body.length) := by
      rw [h0]; simp [workerAttempt, h]
    cases h1 : oracle 1 with
    | ok v1 =>
      constructor
      · simp [runAttempts, attemptLoopAux, maxRetries, he, h1]
      · simp [runAttempts, attemptLoopAux, maxRetries, he, h1]
    | error e1 =>
      cases h2 : oracle 2 with
      | ok v2 =>
        constructor
        · simp [runAttempts, attemptLoopAux, maxRetries, he, h1, h2]
        · simp [runAttempts, attemptLoopAux, maxRetries, he, h1, h2]
      | error e2 =>
        constructor
        · simp [runAttempts, attemptLoopAux, maxRetries, he, h1, h2]
        · simp [runAttempts, attemptLoopAux, maxRetries, he, h1, h2]
  · intro h
    simp [workerAttempt, Nat.not_lt.mpr h]

/-- Witness for C7: a 200-status body of 10 characters produces the
truncation error and a second attempt; a 500-character body reaches the
parse stage. -/
theorem short_body_is_retried_witness :
    workerAttempt (fun _ => .ok "parsed") ⟨true, 200, "0123456789"⟩ =
      .error (truncMsg 10) ∧
    1 ∈ (runAttempts (fun _ =>
      workerAttempt (fun _ => .ok "parsed") ⟨true, 200, "0123456789"⟩)).2.2 ∧
    workerAttempt (fun _ => .ok "parsed")
      ⟨true, 200, String.mk (List.replicate 500 'a')⟩ = .ok "parsed" := by
  refine ⟨?_, ?_, ?_⟩
  · exact (short_body_is_retried _ 200 "0123456789").1 (by decide)
  · exact ((short_body_is_retried _ 200 "0123456789").2.1 (by decide) _ rfl).2
  · exact (short_body_is_retried (fun _ => .ok "parsed") 200 _).2.2 (by
      have hlen : (String.mk (List.replicate 500 'a')).length = 500 :=
        List.length_replicate 500 'a'
      rw [hlen]
      decide)

/-- C5: the worker makes at most 3 attempts; backoff is waited only
before retries (never before the first attempt) and equals 2^r seconds
for retry r, i.e. 2s then 4s; when all three attempts fail the job is
failed with the last observed error; when attempts 1 and 2 fail and
attempt 3 succeeds the job is completed with the attempt-3 result, after
waits of 2s and 4s. -/
theorem retry_policy (oracle : Nat → Except String String) (jid : Nat) (t : Int)
    (jobs : List Job) (e1 e2 e3 v : String) :
    (runAttempts oracle).2.2.length ≤ 3 ∧
    (runAttempts oracle).2.1 =
      ((runAttempts oracle).2.2.filter (fun r => 0 < r)).map retryDelayMs ∧
    (oracle 0 = .error e1 → oracle 1 = .error e2 → oracle 2 = .error e3 →
      (runAttempts oracle).1 = .error e3 ∧
      processClaimedJob oracle jid t jobs = failUpd jid e3 t jobs ∧
      (runAttempts oracle).2.1 = [2000, 4000]) ∧
    (oracle 0 = .error e1 → oracle 1 = .error e2 → oracle 2 = .ok v →
      (runAttempts oracle).1 = .ok v ∧
      processClaimedJob oracle jid t jobs = completeUpd jid v t jobs ∧
      (runAttempts oracle).2.1 = [2000, 4000]) := by
  refine ⟨?_, ?_, ?_, ?_⟩
  · cases h0 : oracle 0 with
    | ok v0 => simp [runAttempts, attemptLoopAux, maxRetries, h0]
    | error f0 =>
      cases h1 : oracle 1 with
      | ok v1 => simp [runAttempts, attemptLoopAux, maxRetries, h0, h1]
      | error f1 =>
        cases h2 : oracle 2 with
        | ok v2 => simp [runAttempts, attemptLoopAux, maxRetries, h0, h1, h2]
        | error f2 => simp [runAttempts, attemptLoopAux, maxRetries, h0, h1, h2]
  · cases h0 : oracle 0 with
    | ok v0 => simp [runAttempts, attemptLoopAux, maxRetries, h0]
    | error f0 =>
      cases h1 : oracle 1 with
      | ok v1 => simp [runAttempts, attemptLoopAux, maxRetries, h0, h1]
      | error f1 =>
        cases h2 : oracle 2 with
        | ok v2 => simp [runAttempts, attemptLoopAux, maxRetries, h0, h1, h2]
        | error f2 => simp [runAttempts, attemptLoopAux, maxRetries, h0, h1, h2]
  · intro h0 h1 h2
    refine ⟨?_, ?_, ?_⟩ <;>
      simp [runAttempts, processClaimedJob, attemptLoopAux, maxRetries,
        retryDelayMs, h0, h1, h2]
  · intro h0 h1 h2
    refine ⟨?_, ?_, ?_⟩ <;>
      simp [runAttempts, processClaimedJob, attemptLoopAux, maxRetries,
        retryDelayMs, h0, h1, h2]

/-- Witness for C5: with timeouts on attempts 1 and 2 and success on
attempt 3, the loop returns the attempt-3 result, the claimed job is
completed with it, and the waits were 2s then 4s. -/
theorem retry_policy_witness :
    (runAttempts (fun r => if r = 0 then .error "timeout1"
      else if r = 1 then .error "timeout2" else .ok "result3")).1 = .ok "result3" ∧
    processClaimedJob (fun r => if r = 0 then .error "timeout1"
        else if r = 1 then .error "timeout2" else .ok "result3") 1 9
        [⟨1, "prompt1", .processing, .null, none, none, 0, none⟩] =
      completeUpd 1 "result3" 9
        [⟨1, "prompt1", .processing, .null, none, none, 0, none⟩] ∧
    (runAttempts (fun r => if r = 0 then .error "timeout1"
      else if r = 1 then .error "timeout2" else .ok "result3")).2.1 = [2000, 4000] :=
  (retry_policy (fun r => if r = 0 then .error "timeout1"
      else if r = 1 then .error "timeout2" else .ok "result3")
    1 9 [⟨1, "prompt1", .processing, .null, none, none, 0, none⟩]
    "timeout1" "timeout2" "" "result3").2.2.2 rfl rfl rfl

/-- C3 (counterexample): the terminal updates carry no status
precondition.  Applying the completion update to a job that is pending —
not processing — is not rejected with InvalidStateError: it overwrites
the row. -/
theorem complete_ignores_current_status :
    (⟨1, "prompt1", .pending, .null, none, none, 0, none⟩ : Job).status ≠ .processing ∧
    completeUpd 1 "r" 5 [⟨1, "prompt1", .pending, .null, none, none, 0, none⟩] =
      [⟨1, "prompt1", .completed, .null, some "r", none, 0, some 5⟩] ∧
    completeUpd 1 "r" 5 [⟨1, "prompt1", .pending, .null, none, none, 0, none⟩] ≠
      [⟨1, "prompt1", .pending, .null, none, none, 0, none⟩] := by
  refine ⟨by simp, rfl, ?_⟩
  intro h
  simp [completeUpd, Job.mk.injEq] at h

/-- C3 (amended): the complete and fail statements update the row whose
id matches, whatever its current status, leave every other row
unchanged, and silently update nothing when the id is absent; no
InvalidStateError or NotFoundError exists in this code path. -/
theorem terminal_updates_unconditional (jid : Nat) (r e : String) (t : Int)
    (jobs : List Job) :
    (∀ j ∈ jobs, j.id = jid →
      { j with status := .completed, result_data := some r, completed_at := some t } ∈
        completeUpd jid r t jobs ∧
      { j with status := .failed, error := some e, completed_at := some t } ∈
        failUpd jid e t jobs) ∧
    (∀ j ∈ jobs, j.id ≠ jid → j ∈ completeUpd jid r t jobs ∧ j ∈ failUpd jid e t jobs) ∧
    ((∀ j ∈ jobs, j.id ≠ jid) →
      completeUpd jid r t jobs = jobs ∧ failUpd jid e t jobs = jobs) := by
  refine ⟨?_, ?_, ?_⟩
  · intro j hj hid
    constructor
    · have : (fun b => if b.id = jid then
          { b with status := .completed, result_data := some r, completed_at := some t }
        else b) j =
          { j with status := .completed, result_data := some r, completed_at := some t } := by
        simp [hid]
      exact this ▸ List.mem_map_of_mem _ hj
    · have : (fun b => if b.id = jid then
          { b with status := .failed, error := some e, completed_at := some t }
        else b) j =
          { j with status := .failed, error := some e, completed_at := some t } := by
        simp [hid]
      exact this ▸ List.mem_map_of_mem _ hj
  · intro j hj hid
    constructor
    · have : (fun b => if b.id = jid then
          { b with status := .completed, result_data := some r, completed_at := some t }
        else b) j = j := by
        simp [hid]
      exact this ▸ List.mem_map_of_mem _ hj
    · have : (fun b => if b.id = jid then
          { b with status := .failed, error := some e, completed_at := some t }
        else b) j = j := by
        simp [hid]
      exact this ▸ List.mem_map_of_mem _ hj
  · intro hall
    constructor
    · calc completeUpd jid r t jobs = jobs.map id := by
            apply List.map_congr_left
            intro b hb
            simp [hall b hb]
        _ = jobs := List.map_id jobs
    · calc failUpd jid e t jobs = jobs.map id := by
            apply List.map_congr_left
            intro b hb
            simp [hall b hb]
        _ = jobs := List.map_id jobs

/-- Witness for the amended C3 at a concrete store: a completed row is
overwritten by a fail update (no rejection), a non-matching row is
untouched, and an absent id changes nothing. -/
theorem terminal_updates_unconditional_witness :
    (⟨1, "prompt1", .failed, .null, some "old", some "e", 0, some 9⟩ : Job) ∈
      failUpd 1 "e" 9 [⟨1, "prompt1", .completed, .null, some "old", none, 0, some 5⟩,
        ⟨2, "prompt1", .pending, .null, none, none, 0, none⟩] ∧
    (⟨2, "prompt1", .pending, .null, none, none, 0, none⟩ : Job) ∈
      failUpd 1 "e" 9 [⟨1, "prompt1", .completed, .null, some "old", none, 0, some 5⟩,
        ⟨2, "prompt1", .pending, .null, none, none, 0, none⟩] ∧
    completeUpd 7 "r" 9 [⟨1, "prompt1", .completed, .null, some "old", none, 0, some 5⟩,
        ⟨2, "prompt1", .pending, .null, none, none, 0, none⟩] =
      [⟨1, "prompt1", .completed, .null, some "old", none, 0, some 5⟩,
        ⟨2, "prompt1", .pending, .null, none, none, 0, none⟩] := by
  refine ⟨?_, ?_, ?_⟩
  · exact ((terminal_updates_unconditional 1 "r" "e" 9 _).1 _
      (List.mem_cons_self _ _) rfl).2
  · exact ((terminal_updates_unconditional 1 "r" "e" 9 _).2.1 _
      (List.mem_cons_of_mem _ (List.mem_cons_self _ _)) (by decide)).2
  · exact ((terminal_updates_unconditional 7 "r" "e" 9 _).2.2
      (by intro j hj
          rcases List.mem_cons.mp hj with rfl | hj
          · decide
          · rcases List.mem_cons.mp hj with rfl | hj
            · decide
            · simp at hj)).1

/-- C8: the atomic claim selects a pending row whose created_at is
minimal among all pending rows and flips exactly the rows with that id
to processing, leaving every other row unchanged; when no pending row
exists it returns none and the table is unchanged. -/
theorem claim_picks_oldest_pending (jobs : List Job) :
    ((claimNextPending jobs).1 = none →
      (∀ j ∈ jobs, j.status ≠ .pending) ∧ (claimNextPending jobs).2 = jobs) ∧
    (∀ j, (claimNextPending jobs).1 = some j →
      j ∈ jobs ∧ j.status = .pending ∧
      (∀ b ∈ jobs, b.status = .pending → j.created_at ≤ b.created_at) ∧
      (claimNextPending jobs).2 = setStatus j.id .processing jobs ∧
      { j with status := .processing } ∈ (claimNextPending jobs).2 ∧
      (∀ b ∈ jobs, b.id ≠ j.id → b ∈ (claimNextPending jobs).2)) := by
  constructor
  · intro hnone
    unfold claimNextPending at hnone ⊢
    cases hsel : selectOldest (fun j => j.status == .pending) jobs with
    | none =>
      dsimp only
      refine ⟨?_, rfl⟩
      intro j hj
      have := selectOldest_eq_none hsel j hj
      simpa using this
    | some j =>
      rw [hsel] at hnone
      exact absurd hnone (by simp)
  · intro j hj
    unfold claimNextPending at hj ⊢
    cases hsel : selectOldest (fun b => b.status == .pending) jobs with
    | none =>
      rw [hsel] at hj
      exact absurd hj (by simp)
    | some b =>
      rw [hsel] at hj
      have hjb : b = j := by simpa using hj
      subst hjb
      obtain ⟨hmem, hp⟩ := selectOldest_eq_some hsel
      have hpend : b.status = .pending := by simpa using hp
      dsimp only
      refine ⟨hmem, hpend, ?_, rfl, ?_, ?_⟩
      · intro c hc hcp
        exact selectOldest_min hsel c hc (by simp [hcp])
      · have : (fun x => if x.id = b.id then { x with status := .processing } else x) b =
            { b with status := .processing } := by simp
        exact this ▸ List.mem_map_of_mem _ hmem
      · intro c hc hcid
        have : (fun x => if x.id = b.id then { x with status := .processing } else x) c =
            c := by simp [hcid]
        exact this ▸ List.mem_map_of_mem _ hc

/-- Witness for C8: with two pending rows, the claim returns the older
one (id 2, created at 5) and flips it to processing, leaving the other
row unchanged; claiming from a table with no pending row returns none
and changes nothing. -/
theorem claim_picks_oldest_pending_witness :
    (⟨2, "prompt1", .pending, .null, none, none, 5, none⟩ : Job) ∈
      [⟨1, "prompt1", .pending, .null, none, none, 10, none⟩,
       ⟨2, "prompt1", .pending, .null, none, none, 5, none⟩] ∧
    (⟨2, "prompt1", .processing, .null, none, none, 5, none⟩ : Job) ∈
      (claimNextPending
        [⟨1, "prompt1", .pending, .null, none, none, 10, none⟩,
         ⟨2, "prompt1", .pending, .null, none, none, 5, none⟩]).2 ∧
    (∀ j ∈ ([⟨1, "prompt1", .completed, .null, some "r", none, 0, some 5⟩] : List Job),
      j.status ≠ .pending) ∧
    (claimNextPending [⟨1, "prompt1", .completed, .null, some "r", none, 0, some 5⟩]).2 =
      [⟨1, "prompt1", .completed, .null, some "r", none, 0, some 5⟩] := by
  have h2 := (claim_picks_oldest_pending
    [⟨1, "prompt1", .pending, .null, none, none, 10, none⟩,
     ⟨2, "prompt1", .pending, .null, none, none, 5, none⟩]).2
    ⟨2, "prompt1", .pending, .null, none, none, 5, none⟩ rfl
  have h1 := (claim_picks_oldest_pending
    [⟨1, "prompt1", .completed, .null, some "r", none, 0, some 5⟩]).1 rfl
  exact ⟨h2.1, h2.2.2.2.2.1, h1.1, h1.2⟩

/-- C4 (counterexample): a submission whose input_data.messages is the
empty array — which lacks a non-empty message sequence — is not
rejected: the handler inserts a pending job, because the only check on
messages is JavaScript truthiness and an empty array is truthy. -/
theorem submit_accepts_empty_messages :
    jget (jget (.obj [("job_type", .str "prompt1"),
        ("input_data", .obj [("messages", .arr [])])]) "input_data") "messages" =
      .arr [] ∧
    (submitJob (.obj [("job_type", .str "prompt1"),
        ("input_data", .obj [("messages", .arr [])])]) 0 initStore).1 = .created 1 ∧
    (submitJob (.obj [("job_type", .str "prompt1"),
        ("input_data", .obj [("messages", .arr [])])]) 0 initStore).2.jobs =
      [mkJob 1 "prompt1" (.obj [("messages", .arr [])]) 0] :=
  ⟨rfl, rfl, rfl⟩

/-- C4 (amended): the handler answers 400 and leaves the store unchanged
exactly when job_type or input_data is missing or falsy, job_type is not
one of the three recognized strings, input_data is not of typeof object,
or its messages field is absent or falsy; in every other case — which
includes an empty or non-array messages value — it inserts exactly one
new pending row. -/
theorem submit_characterization (body : JSValue) (t : Int) (s : Store) :
    (submitRejects body = true →
      (∃ m, (submitJob body t s).1 = .badRequest m) ∧ (submitJob body t s).2 = s) ∧
    (submitRejects body = false →
      ∃ jt, jget body "job_type" = .str jt ∧ validJobTypes.contains jt = true ∧
        (submitJob body t s).1 = .created s.nextId ∧
        (submitJob body t s).2.jobs =
          s.jobs ++ [mkJob s.nextId jt (jget body "input_data") t] ∧
        (mkJob s.nextId jt (jget body "input_data") t).status = .pending) := by
  constructor
  · intro hrej
    unfold submitJob
    dsimp only
    by_cases h1 : (!truthy (jget body "job_type") || !truthy (jget body "input_data")) = true
    · rw [if_pos h1]
      exact ⟨⟨_, rfl⟩, rfl⟩
    · rw [if_neg h1]
      cases hjt : jget body "job_type" with
      | str jt =>
        dsimp only
        by_cases h2 : validJobTypes.contains jt = true
        · have h2m : jt ∈ validJobTypes := by simpa using h2
          rw [if_neg (by simp [h2m])]
          by_cases h3 : (jsTypeof (jget body "input_data") != "object" ||
              !truthy (jget (jget body "input_data") "messages")) = true
          · rw [if_pos h3]
            exact ⟨⟨_, rfl⟩, rfl⟩
          · exfalso
            unfold submitRejects at hrej
            rw [hjt] at hrej
            have h1' := eq_false_of_ne_true h1
            have h3' := eq_false_of_ne_true h3
            rw [hjt] at h1'
            simp only [Bool.or_eq_true] at hrej
            rcases hrej with ((((hx | hx) | hx) | hx) | hx)
            · simp [hx] at h1'
            · simp [hx] at h1'
            · simp [isValidJobType] at hx
              exact hx h2m
            · simp [hx] at h3'
            · simp [hx] at h3'
        · have h2m : jt ∉ validJobTypes := by simpa using h2
          rw [if_pos (by simp [h2m])]
          exact ⟨⟨_, rfl⟩, rfl⟩
      | undefined => exact ⟨⟨_, rfl⟩, rfl⟩
      | null => exact ⟨⟨_, rfl⟩, rfl⟩
      | bool b => exact ⟨⟨_, rfl⟩, rfl⟩
      | num n => exact ⟨⟨_, rfl⟩, rfl⟩
      | arr xs => exact ⟨⟨_, rfl⟩, rfl⟩
      | obj fs => exact ⟨⟨_, rfl⟩, rfl⟩
  · intro hacc
    unfold submitRejects at hacc
    simp only [Bool.or_eq_false_iff] at hacc
    obtain ⟨⟨⟨⟨h1f, h2f⟩, h3f⟩, h4f⟩, h5f⟩ := hacc
    have h3t : isValidJobType (jget body "job_type") = true := by simpa using h3f
    obtain ⟨jt, hjt, hcont⟩ :
        ∃ jt, jget body "job_type" = .str jt ∧ validJobTypes.contains jt = true := by
      cases hx : jget body "job_type" with
      | str jt =>
        rw [hx] at h3t
        exact ⟨jt, rfl, by simpa [isValidJobType] using h3t⟩
      | undefined => rw [hx] at h3t; simp [isValidJobType] at h3t
      | null => rw [hx] at h3t; simp [isValidJobType] at h3t
      | bool b => rw [hx] at h3t; simp [isValidJobType] at h3t
      | num n => rw [hx] at h3t; simp [isValidJobType] at h3t
      | arr xs => rw [hx] at h3t; simp [isValidJobType] at h3t
      | obj fs => rw [hx] at h3t; simp [isValidJobType] at h3t
    have key : submitJob body t s =
        (.created s.nextId, insertJob jt (jget body "input_data") t s) := by
      unfold submitJob
      dsimp only
      rw [if_neg (by simp [h1f, h2f])]
      rw [hjt]
      dsimp only
      have hcm : jt ∈ validJobTypes := by simpa using hcont
      rw [if_neg (by simp [hcm])]
      rw [if_neg (by simp [h4f, h5f])]
    refine ⟨jt, hjt, hcont, ?_, ?_, rfl⟩
    · rw [key]
    · rw [key]
      rfl

/-- Witness for the amended C4: job_type "bogus" is rejected with the
store unchanged; a valid submission is inserted as one new pending row. -/
theorem submit_characterization_witness :
    ((∃ m, (submitJob (.obj [("job_type", .str "bogus"),
        ("input_data", .obj [("messages", .arr [.null])])]) 0 initStore).1 =
          .badRequest m) ∧
      (submitJob (.obj [("job_type", .str "bogus"),
        ("input_data", .obj [("messages", .arr [.null])])]) 0 initStore).2 = initStore) ∧
    (∃ jt, jget (.obj [("job_type", .str "prompt1"),
          ("input_data", .obj [("messages", .arr [.null])])]) "job_type" = .str jt ∧
      validJobTypes.contains jt = true ∧
      (submitJob (.obj [("job_type", .str "prompt1"),
          ("input_data", .obj [("messages", .arr [.null])])]) 0 initStore).1 =
        .created initStore.nextId ∧
      (submitJob (.obj [("job_type", .str "prompt1"),
          ("input_data", .obj [("messages", .arr [.null])])]) 0 initStore).2.jobs =
        initStore.jobs ++ [mkJob initStore.nextId jt
          (jget (.obj [("job_type", .str "prompt1"),
            ("input_data", .obj [("messages", .arr [.null])])]) "input_data") 0] ∧
      (mkJob initStore.nextId jt
        (jget (.obj [("job_type", .str "prompt1"),
          ("input_data", .obj [("messages", .arr [.null])])]) "input_data") 0).status =
        .pending) :=
  ⟨(submit_characterization _ 0 initStore).1 rfl,
   (submit_characterization _ 0 initStore).2 rfl⟩

theorem cleanup_fst (now : Int) (jobs : List Job) :
    (cleanupOldJobs now jobs).1 =
      jobs.filter (fun j => !shouldDelete (now - retentionMs) j) := rfl

theorem storeInv_initStore : StoreInv initStore := by
  refine ⟨?_, ?_, ?_, ?_, ?_⟩ <;> simp [initStore]

theorem storeInv_applyEvent (s : Store) (e : Event) (h : StoreInv s) :
    StoreInv (applyEvent s e) := by
  obtain ⟨hbound, hnd, hifnd, hif, hfields⟩ := h
  cases e with
  | insert jt d t =>
    unfold applyEvent insertJob
    refine ⟨?_, ?_, hifnd, ?_, ?_⟩
    · intro j hj
      rcases List.mem_append.mp hj with hj | hj
      · exact Nat.lt_succ_of_lt (hbound j hj)
      · have hje : j = mkJob s.nextId jt d t := by simpa using hj
        subst hje
        exact Nat.lt_succ_self _
    · show ((s.jobs ++ [mkJob s.nextId jt d t]).map Job.id).Nodup
      rw [List.map_append, List.nodup_append]
      refine ⟨hnd, by simp, ?_⟩
      intro a ha hb
      obtain ⟨j, hj, rfl⟩ := List.mem_map.mp ha
      have hsnext : j.id = s.nextId := by simpa [mkJob] using hb
      exact absurd (hbound j hj) (by rw [hsnext]; exact lt_irrefl _)
    · intro a ha
      obtain ⟨j, hj, hja, hjs⟩ := hif a ha
      exact ⟨j, List.mem_append_left _ hj, hja, hjs⟩
    · intro j hj
      rcases List.mem_append.mp hj with hj | hj
      · exact hfields j hj
      · have hje : j = mkJob s.nextId jt d t := by simpa using hj
        subst hje
        simp [mkJob, JobFieldsOk]
  | claim =>
    unfold applyEvent
    cases hsel : selectOldest (fun j => j.status == .pending) s.jobs with
    | none => exact ⟨hbound, hnd, hifnd, hif, hfields⟩
    | some j =>
      obtain ⟨hjmem, hjp⟩ := selectOldest_eq_some hsel
      have hjpend : j.status = .pending := by simpa using hjp
      refine ⟨?_, ?_, ?_, ?_, ?_⟩
      · intro x hx
        obtain ⟨b, hb, rfl⟩ := List.mem_map.mp hx
        have hid : (if b.id = j.id then { b with status := Status.processing } else b).id
            = b.id := by
          by_cases hbe : b.id = j.id <;> simp [hbe]
        rw [hid]
        exact hbound b hb
      · show ((setStatus j.id .processing s.jobs).map Job.id).Nodup
        rw [setStatus_map_id]
        exact hnd
      · show (j.id :: s.inflight).Nodup
        rw [List.nodup_cons]
        refine ⟨?_, hifnd⟩
        intro hin
        obtain ⟨j2, hj2, hj2id, hj2st⟩ := hif j.id hin
        have hj2j : j2 = j := List.inj_on_of_nodup_map hnd hj2 hjmem hj2id
        rw [hj2j, hjpend] at hj2st
        exact absurd hj2st (by simp)
      · intro a ha
        rcases List.mem_cons.mp ha with rfl | ha
        · refine ⟨{ j with status := .processing }, ?_, rfl, rfl⟩
          have hfj : (fun b => if b.id = j.id then { b with status := Status.processing }
              else b) j = { j with status := .processing } := by simp
          exact hfj ▸ List.mem_map_of_mem _ hjmem
        · obtain ⟨j2, hj2, hj2id, hj2st⟩ := hif a ha
          have hne : j2.id ≠ j.id := by
            intro he
            have hj2j : j2 = j := List.inj_on_of_nodup_map hnd hj2 hjmem he
            rw [hj2j, hjpend] at hj2st
            exact absurd hj2st (by simp)
          refine ⟨j2, ?_, hj2id, hj2st⟩
          have hfj : (fun b => if b.id = j.id then { b with status := Status.processing }
              else b) j2 = j2 := by simp [hne]
          exact hfj ▸ List.mem_map_of_mem _ hj2
      · intro x hx
        obtain ⟨b, hb, rfl⟩ := List.mem_map.mp hx
        by_cases hbe : b.id = j.id
        · rw [if_pos hbe]
          have hbj : b = j := List.inj_on_of_nodup_map hnd hb hjmem hbe
          subst hbj
          obtain ⟨hr, he⟩ := (hfields b hb).1 (by rw [← hjpend])
          simp [JobFieldsOk, hr, he]
        · rw [if_neg hbe]
          exact hfields b hb
  | complete id r t =>
    simp only [applyEvent]
    by_cases hin : id ∈ s.inflight
    · rw [if_pos hin]
      obtain ⟨j0, hj0, hj0id, hj0st⟩ := hif id hin
      obtain ⟨hr0, he0⟩ := (hfields j0 hj0).2.1 hj0st
      refine ⟨?_, ?_, ?_, ?_, ?_⟩
      · intro x hx
        obtain ⟨b, hb, rfl⟩ := List.mem_map.mp hx
        have hid : (if b.id = id then
            { b with
                status := Status.completed
                result_data := some r
                completed_at := some t } else b).id = b.id := by
          by_cases hbe : b.id = id <;> simp [hbe]
        rw [hid]
        exact hbound b hb
      · show ((completeUpd id r t s.jobs).map Job.id).Nodup
        rw [completeUpd_map_id]
        exact hnd
      · exact List.Nodup.erase _ hifnd
      · intro a ha
        have hamem := (List.Nodup.mem_erase_iff hifnd).mp ha
        obtain ⟨j2, hj2, hj2id, hj2st⟩ := hif a hamem.2
        have hne : j2.id ≠ id := by rw [hj2id]; exact hamem.1
        refine ⟨j2, ?_, hj2id, hj2st⟩
        have hfj : (fun b => if b.id = id then
            { b with
                status := Status.completed
                result_data := some r
                completed_at := some t } else b) j2 = j2 := by simp [hne]
        exact hfj ▸ List.mem_map_of_mem _ hj2
      · intro x hx
        obtain ⟨b, hb, rfl⟩ := List.mem_map.mp hx
        by_cases hbe : b.id = id
        · rw [if_pos hbe]
          have hbj : b = j0 := List.inj_on_of_nodup_map hnd hb hj0 (by rw [hbe, hj0id])
          subst hbj
          simp [JobFieldsOk, he0]
        · rw [if_neg hbe]
          exact hfields b hb
    · rw [if_neg hin]
      exact ⟨hbound, hnd, hifnd, hif, hfields⟩
  | fail id e t =>
    simp only [applyEvent]
    by_cases hin : id ∈ s.inflight
    · rw [if_pos hin]
      obtain ⟨j0, hj0, hj0id, hj0st⟩ := hif id hin
      obtain ⟨hr0, he0⟩ := (hfields j0 hj0).2.1 hj0st
      refine ⟨?_, ?_, ?_, ?_, ?_⟩
      · intro x hx
        obtain ⟨b, hb, rfl⟩ := List.mem_map.mp hx
        have hid : (if b.id = id then
            { b with
                status := Status.failed
                error := some e
                completed_at := some t } else b).id = b.id := by
          by_cases hbe : b.id = id <;> simp [hbe]
        rw [hid]
        exact hbound b hb
      · show ((failUpd id e t s.jobs).map Job.id).Nodup
        rw [failUpd_map_id]
        exact hnd
      · exact List.Nodup.erase _ hifnd
      · intro a ha
        have hamem := (List.Nodup.mem_erase_iff hifnd).mp ha
        obtain ⟨j2, hj2, hj2id, hj2st⟩ := hif a hamem.2
        have hne : j2.id ≠ id := by rw [hj2id]; exact hamem.1
        refine ⟨j2, ?_, hj2id, hj2st⟩
        have hfj : (fun b => if b.id = id then
            { b with
                status := Status.failed
                error := some e
                completed_at := some t } else b) j2 = j2 := by simp [hne]
        exact hfj ▸ List.mem_map_of_mem _ hj2
      · intro x hx
        obtain ⟨b, hb, rfl⟩ := List.mem_map.mp hx
        by_cases hbe : b.id = id
        · rw [if_pos hbe]
          have hbj : b = j0 := List.inj_on_of_nodup_map hnd hb hj0 (by rw [hbe, hj0id])
          subst hbj
          simp [JobFieldsOk, hr0]
        · rw [if_neg hbe]
          exact hfields b hb
    · rw [if_neg hin]
      exact ⟨hbound, hnd, hifnd, hif, hfields⟩
  | cleanup now =>
    simp only [applyEvent]
    refine ⟨?_, ?_, hifnd, ?_, ?_⟩
    · intro j hj
      rw [cleanup_fst] at hj
      exact hbound j (List.mem_filter.mp hj).1
    · show (((cleanupOldJobs now s.jobs).1).map Job.id).Nodup
      rw [cleanup_fst]
      exact List.Nodup.sublist (List.Sublist.map Job.id (List.filter_sublist _)) hnd
    · intro a ha
      obtain ⟨j2, hj2, hj2id, hj2st⟩ := hif a ha
      refine ⟨j2, ?_, hj2id, hj2st⟩
      rw [cleanup_fst]
      refine List.mem_filter.mpr ⟨hj2, ?_⟩
      simp [shouldDelete, hj2st]
    · intro j hj
      rw [cleanup_fst] at hj
      exact hfields j (List.mem_filter.mp hj).1

theorem storeInv_runEvents (es : List Event) : StoreInv (runEvents es) := by
  suffices h : ∀ s, StoreInv s → StoreInv (es.foldl applyEvent s) from
    h initStore storeInv_initStore
  induction es with
  | nil => exact fun s hs => hs
  | cons e rest ih => exact fun s hs => ih _ (storeInv_applyEvent s e hs)

/-- C2: in every store state the system can reach — any sequence of
inserts, claims, worker outcomes and cleanups applied as server.js
applies them — a completed row has result_data set and error null, and
a failed row has error set and result_data null: exactly one of the two
is non-null once the status is terminal, and this holds again after
every further operation. -/
theorem terminal_result_error_exclusive (es : List Event) :
    ∀ j ∈ (runEvents es).jobs,
      (j.status = .completed → (∃ r, j.result_data = some r) ∧ j.error = none) ∧
      (j.status = .failed → (∃ e, j.error = some e) ∧ j.result_data = none) := by
  intro j hj
  obtain ⟨-, -, -, -, hfields⟩ := storeInv_runEvents es
  obtain ⟨-, -, hc, hf⟩ := hfields j hj
  exact ⟨hc, hf⟩

/-- Witness for C2: insert, claim, complete leaves the single row
completed with its result set and its error null. -/
theorem terminal_result_error_exclusive_witness :
    (∃ r, (⟨1, "prompt1", .completed, .null, some "ok", none, 0, some 5⟩ : Job).result_data
      = some r) ∧
    (⟨1, "prompt1", .completed, .null, some "ok", none, 0, some 5⟩ : Job).error = none := by
  have hmem : (⟨1, "prompt1", .completed, .null, some "ok", none, 0, some 5⟩ : Job) ∈
      (runEvents [.insert "prompt1" .null 0, .claim, .complete 1 "ok" 5]).jobs := by
    show _ ∈ [(⟨1, "prompt1", .completed, .null, some "ok", none, 0, some 5⟩ : Job)]
    exact List.mem_singleton_self _
  exact (terminal_result_error_exclusive _ _ hmem).1 rfl

theorem updWS_same (ws : Nat → WorkerTxn) (i : Nat) (w : WorkerTxn) :
    updWS ws i w i = w := by simp [updWS]

theorem updWS_ne (ws : Nat → WorkerTxn) (i : Nat) (w : WorkerTxn) (k : Nat)
    (h : k ≠ i) : updWS ws i w k = ws k := by simp [updWS, h]

theorem ownsNone_cons {locks : List (Nat × Nat)} {i : Nat} {q : Nat × Nat}
    (h : ownsNone locks i) (hq : q.2 ≠ i) : ownsNone (q :: locks) i := by
  intro p hp
  rcases List.mem_cons.mp hp with rfl | hp
  · exact hq
  · exact h p hp

theorem ownsNone_filter {locks : List (Nat × Nat)} {i k : Nat}
    (h : ownsNone locks i) : ownsNone (locks.filter (fun p => p.2 != k)) i :=
  fun p hp => h p (List.mem_filter.mp hp).1

theorem ownsNone_filter_self (locks : List (Nat × Nat)) (i : Nat) :
    ownsNone (locks.filter (fun p => p.2 != i)) i := by
  intro p hp
  have := (List.mem_filter.mp hp).2
  simpa using this

theorem ownsOnly_cons {locks : List (Nat × Nat)} {i a : Nat} {q : Nat × Nat}
    (h : ownsOnly locks i a) (hq : q.2 ≠ i) : ownsOnly (q :: locks) i a := by
  refine ⟨List.mem_cons_of_mem _ h.1, ?_⟩
  intro p hp hpi
  rcases List.mem_cons.mp hp with rfl | hp
  · exact absurd hpi hq
  · exact h.2 p hp hpi

theorem ownsOnly_filter {locks : List (Nat × Nat)} {o a f : Nat}
    (hof : o ≠ f) (h : ownsOnly locks o a) :
    ownsOnly (locks.filter (fun p => p.2 != f)) o a := by
  refine ⟨List.mem_filter.mpr ⟨h.1, by simpa using hof⟩, ?_⟩
  intro p hp hpi
  exact h.2 p (List.mem_filter.mp hp).1 hpi

theorem pendingRow_setStatus_ne {jobs : List Job} {b a : Nat}
    (h : pendingRow jobs b) (hne : b ≠ a) :
    pendingRow (setStatus a .processing jobs) b := by
  obtain ⟨j, hj, hid, hst⟩ := h
  refine ⟨j, ?_, hid, hst⟩
  have hfj : (fun x => if x.id = a then { x with status := Status.processing } else x) j
      = j := by
    simp [hid, hne]
  exact hfj ▸ List.mem_map_of_mem _ hj

theorem processingRow_setStatus {jobs : List Job} {b a : Nat}
    (h : processingRow jobs b) :
    processingRow (setStatus a .processing jobs) b := by
  obtain ⟨j, hj, hid, hst⟩ := h
  by_cases hja : j.id = a
  · refine ⟨{ j with status := .processing }, ?_, hid, rfl⟩
    have hfj : (fun x => if x.id = a then { x with status := Status.processing } else x) j
        = { j with status := .processing } := by simp [hja]
    exact hfj ▸ List.mem_map_of_mem _ hj
  · refine ⟨j, ?_, hid, hst⟩
    have hfj : (fun x => if x.id = a then { x with status := Status.processing } else x) j
        = j := by simp [hja]
    exact hfj ▸ List.mem_map_of_mem _ hj

theorem pendingRow_to_processing {jobs : List Job} {a : Nat}
    (h : pendingRow jobs a) :
    processingRow (setStatus a .processing jobs) a := by
  obtain ⟨j, hj, hid, hst⟩ := h
  refine ⟨{ j with status := .processing }, ?_, hid, rfl⟩
  have hfj : (fun x => if x.id = a then { x with status := Status.processing } else x) j
      = { j with status := .processing } := by simp [hid]
  exact hfj ▸ List.mem_map_of_mem _ hj

theorem claimEligible_spec {locks : List (Nat × Nat)} {i : Nat} {j : Job}
    (h : claimEligible locks i j = true) :
    j.status = .pending ∧ lockedByOther locks i j.id = false := by
  have h' := h
  unfold claimEligible at h'
  rw [Bool.and_eq_true] at h'
  refine ⟨by simpa using h'.1, ?_⟩
  have := h'.2
  simpa using this

theorem sysInv_step (s : WorkerSys) (i : Nat) (h : SysInv s) :
    SysInv (stepWorker i s) := by
  obtain ⟨hnd, hw, hdis⟩ := h
  cases hpc : (s.ws i).pc with
  | ready =>
    obtain ⟨hselN, hownN⟩ := (hw i).1 hpc
    unfold stepWorker
    rw [hpc]
    dsimp only
    cases hsel : selectOldest (claimEligible s.locks i) s.jobs with
    | some j =>
      obtain ⟨hjmem, hjel⟩ := selectOldest_eq_some hsel
      obtain ⟨hjpend, hjnl⟩ := claimEligible_spec hjel
      have key : ∀ z, z ≠ i → (s.ws z).sel = some j.id → False := by
        intro z hz hsz
        cases hzc : (s.ws z).pc with
        | ready =>
          rw [((hw z).1 hzc).1] at hsz
          exact absurd hsz (by simp)
        | didSelect =>
          obtain ⟨-, hol⟩ := (hw z).2.2.1 j.id (Or.inl hzc) hsz
          have hlk : lockedByOther s.locks i j.id = true := by
            unfold lockedByOther
            refine List.any_eq_true.mpr ⟨(j.id, z), hol.1, ?_⟩
            simp [hz]
          exact absurd hlk (by simp [hjnl])
        | didUpdate =>
          obtain ⟨-, hol⟩ := (hw z).2.2.1 j.id (Or.inr hzc) hsz
          have hlk : lockedByOther s.locks i j.id = true := by
            unfold lockedByOther
            refine List.any_eq_true.mpr ⟨(j.id, z), hol.1, ?_⟩
            simp [hz]
          exact absurd hlk (by simp [hjnl])
        | committed =>
          obtain ⟨hproc, -⟩ := (hw z).2.2.2.2 hzc
          obtain ⟨j2, hj2, hj2id, hj2st⟩ := hproc j.id hsz
          have hj2j : j2 = j := List.inj_on_of_nodup_map hnd hj2 hjmem hj2id
          rw [hj2j, hjpend] at hj2st
          exact absurd hj2st (by simp)
      dsimp only
      refine ⟨hnd, ?_, ?_⟩
      · intro k
        dsimp only
        by_cases hk : k = i
        · subst hk
          rw [updWS_same]
          refine ⟨?_, ?_, ?_, ?_, ?_⟩
          · intro hcon; simp at hcon
          · intro _ hcon; simp at hcon
          · intro a _ ha
            have haj : j.id = a := by simpa using ha
            subst haj
            refine ⟨⟨j, hjmem, rfl, hjpend⟩, List.mem_cons_self _ _, ?_⟩
            intro p hp hpi
            rcases List.mem_cons.mp hp with rfl | hp
            · rfl
            · exact absurd hpi (hownN p hp)
          · intro hcon; simp at hcon
          · intro hcon; simp at hcon
        · rw [updWS_ne _ _ _ _ hk]
          obtain ⟨w1, w2, w3, w4, w5⟩ := hw k
          have hne : ((j.id, i) : Nat × Nat).2 ≠ k := fun he => hk he.symm
          refine ⟨?_, ?_, ?_, w4, ?_⟩
          · intro hp; exact ⟨(w1 hp).1, ownsNone_cons (w1 hp).2 hne⟩
          · intro hp hs'; exact ownsNone_cons (w2 hp hs') hne
          · intro a hor hsa
            obtain ⟨hpd, hol⟩ := w3 a hor hsa
            exact ⟨hpd, ownsOnly_cons hol hne⟩
          · intro hp
            obtain ⟨hproc, hon⟩ := w5 hp
            exact ⟨hproc, ownsNone_cons hon hne⟩
      · intro x y a hxy hx hy
        dsimp only at hx hy
        by_cases hxi : x = i
        · subst hxi
          rw [updWS_same] at hx
          have haj : j.id = a := by simpa using hx
          subst haj
          have hyi : y ≠ x := fun he => hxy he.symm
          rw [updWS_ne _ _ _ _ hyi] at hy
          exact key y hyi hy
        · rw [updWS_ne _ _ _ _ hxi] at hx
          by_cases hyi : y = i
          · subst hyi
            rw [updWS_same] at hy
            have haj : j.id = a := by simpa using hy
            subst haj
            exact key x hxi hx
          · rw [updWS_ne _ _ _ _ hyi] at hy
            exact hdis x y a hxy hx hy
    | none =>
      dsimp only
      refine ⟨hnd, ?_, ?_⟩
      · intro k
        dsimp only
        by_cases hk : k = i
        · subst hk
          rw [updWS_same]
          refine ⟨?_, ?_, ?_, ?_, ?_⟩
          · intro hcon; simp at hcon
          · intro _ _; exact hownN
          · intro a _ ha; simp at ha
          · intro hcon; simp at hcon
          · intro hcon; simp at hcon
        · rw [updWS_ne _ _ _ _ hk]
          exact hw k
      · intro x y a hxy hx hy
        dsimp only at hx hy
        by_cases hxi : x = i
        · subst hxi
          rw [updWS_same] at hx
          exact absurd hx (by simp)
        · rw [updWS_ne _ _ _ _ hxi] at hx
          by_cases hyi : y = i
          · subst hyi
            rw [updWS_same] at hy
            exact absurd hy (by simp)
          · rw [updWS_ne _ _ _ _ hyi] at hy
            exact hdis x y a hxy hx hy
  | didSelect =>
    unfold stepWorker
    rw [hpc]
    dsimp only
    cases hsel : (s.ws i).sel with
    | some a0 =>
      obtain ⟨hpend, hol⟩ := (hw i).2.2.1 a0 (Or.inl hpc) hsel
      have hsz : ∀ z, ((updWS s.ws i ⟨.didUpdate, some a0⟩) z).sel = (s.ws z).sel := by
        intro z
        by_cases hz : z = i
        · subst hz; rw [updWS_same, hsel]
        · rw [updWS_ne _ _ _ _ hz]
      refine ⟨hnd, ?_, ?_⟩
      · intro k
        dsimp only
        by_cases hk : k = i
        · subst hk
          rw [updWS_same]
          refine ⟨?_, ?_, ?_, ?_, ?_⟩
          · intro hcon; simp at hcon
          · intro hcon; simp at hcon
          · intro a _ ha
            have haj : a0 = a := by simpa using ha
            subst haj
            exact ⟨hpend, hol⟩
          · intro _; simp
          · intro hcon; simp at hcon
        · rw [updWS_ne _ _ _ _ hk]
          exact hw k
      · intro x y a hxy hx hy
        dsimp only at hx hy
        rw [hsz x] at hx
        rw [hsz y] at hy
        exact hdis x y a hxy hx hy
    | none =>
      have hown := (hw i).2.1 hpc hsel
      have hsz : ∀ z, ((updWS s.ws i ⟨.committed, none⟩) z).sel = (s.ws z).sel := by
        intro z
        by_cases hz : z = i
        · subst hz; rw [updWS_same, hsel]
        · rw [updWS_ne _ _ _ _ hz]
      refine ⟨hnd, ?_, ?_⟩
      · intro k
        dsimp only
        by_cases hk : k = i
        · subst hk
          rw [updWS_same]
          refine ⟨?_, ?_, ?_, ?_, ?_⟩
          · intro hcon; simp at hcon
          · intro hcon; simp at hcon
          · intro a _ ha; simp at ha
          · intro hcon; simp at hcon
          · intro _
            refine ⟨?_, ownsNone_filter_self _ _⟩
            intro a ha; simp at ha
        · rw [updWS_ne _ _ _ _ hk]
          obtain ⟨w1, w2, w3, w4, w5⟩ := hw k
          refine ⟨?_, ?_, ?_, w4, ?_⟩
          · intro hp; exact ⟨(w1 hp).1, ownsNone_filter (w1 hp).2⟩
          · intro hp hs'; exact ownsNone_filter (w2 hp hs')
          · intro a hor hsa
            obtain ⟨hpd, holk⟩ := w3 a hor hsa
            exact ⟨hpd, ownsOnly_filter hk holk⟩
          · intro hp
            obtain ⟨hproc, hon⟩ := w5 hp
            exact ⟨hproc, ownsNone_filter hon⟩
      · intro x y a hxy hx hy
        dsimp only at hx hy
        rw [hsz x] at hx
        rw [hsz y] at hy
        exact hdis x y a hxy hx hy
  | didUpdate =>
    unfold stepWorker
    rw [hpc]
    dsimp only
    cases hsel : (s.ws i).sel with
    | none => exact absurd hsel ((hw i).2.2.2.1 hpc)
    | some a0 =>
      obtain ⟨hpend, hol⟩ := (hw i).2.2.1 a0 (Or.inr hpc) hsel
      have hsz : ∀ z, ((updWS s.ws i ⟨.committed, some a0⟩) z).sel = (s.ws z).sel := by
        intro z
        by_cases hz : z = i
        · subst hz; rw [updWS_same, hsel]
        · rw [updWS_ne _ _ _ _ hz]
      refine ⟨?_, ?_, ?_⟩
      · rw [setStatus_map_id]
        exact hnd
      · intro k
        dsimp only
        by_cases hk : k = i
        · subst hk
          rw [updWS_same]
          refine ⟨?_, ?_, ?_, ?_, ?_⟩
          · intro hcon; simp at hcon
          · intro hcon; simp at hcon
          · intro a hor _
            rcases hor with hcon | hcon <;> simp at hcon
          · intro hcon; simp at hcon
          · intro _
            refine ⟨?_, ownsNone_filter_self _ _⟩
            intro a ha
            have haj : a0 = a := by simpa using ha
            subst haj
            exact pendingRow_to_processing hpend
        · rw [updWS_ne _ _ _ _ hk]
          obtain ⟨w1, w2, w3, w4, w5⟩ := hw k
          refine ⟨?_, ?_, ?_, w4, ?_⟩
          · intro hp; exact ⟨(w1 hp).1, ownsNone_filter (w1 hp).2⟩
          · intro hp hs'; exact ownsNone_filter (w2 hp hs')
          · intro a hor hsa
            obtain ⟨hpd, holk⟩ := w3 a hor hsa
            have hne : a ≠ a0 := by
              intro he
              subst he
              exact hdis k i a hk hsa hsel
            exact ⟨pendingRow_setStatus_ne hpd hne,
              ownsOnly_filter hk holk⟩
          · intro hp
            obtain ⟨hproc, hon⟩ := w5 hp
            refine ⟨?_, ownsNone_filter hon⟩
            intro a hsa
            exact processingRow_setStatus (hproc a hsa)
      · intro x y a hxy hx hy
        dsimp only at hx hy
        rw [hsz x] at hx
        rw [hsz y] at hy
        exact hdis x y a hxy hx hy
  | committed =>
    unfold stepWorker
    rw [hpc]
    dsimp only
    exact ⟨hnd, hw, hdis⟩

theorem sysInv_init (jobs0 : List Job) (hnd : (jobs0.map Job.id).Nodup) :
    SysInv (initSys jobs0) := by
  refine ⟨hnd, ?_, ?_⟩
  · intro k
    refine ⟨?_, ?_, ?_, ?_, ?_⟩
    · intro _
      exact ⟨rfl, by intro p hp; simp [initSys] at hp⟩
    · intro hcon; simp [initSys] at hcon
    · intro a _ ha; simp [initSys] at ha
    · intro hcon; simp [initSys] at hcon
    · intro hcon; simp [initSys] at hcon
  · intro x y a hxy hx hy
    simp [initSys] at hx

theorem sysInv_runSched (jobs0 : List Job) (sched : List Nat)
    (hnd : (jobs0.map Job.id).Nodup) : SysInv (runSched (initSys jobs0) sched) := by
  suffices hstep : ∀ t, SysInv t → SysInv (runSched t sched) from
    hstep _ (sysInv_init jobs0 hnd)
  unfold runSched
  induction sched with
  | nil => exact fun t ht => ht
  | cons c rest ih => exact fun t ht => ih _ (sysInv_step t c ht)

theorem soleClaim_step (jid0 : Nat) (s : WorkerSys) (i : Nat) (hi : i < 2)
    (h : soleClaim jid0 s) : soleClaim jid0 (stepWorker i s) := by
  rcases h with hA | ⟨c, hB⟩ | ⟨c, hC⟩
  · obtain ⟨hall, hpend, honly, hlk⟩ := hA
    have hwi := hall i
    unfold stepWorker
    rw [hwi]
    dsimp only
    cases hsel : selectOldest (claimEligible s.locks i) s.jobs with
    | none =>
      exfalso
      obtain ⟨j, hj, hjid, hjst⟩ := hpend
      have hfalse := selectOldest_eq_none hsel j hj
      rw [hlk] at hfalse
      simp [claimEligible, lockedByOther, hjst] at hfalse
    | some j =>
      obtain ⟨hjmem, hjel⟩ := selectOldest_eq_some hsel
      obtain ⟨hjp, -⟩ := claimEligible_spec hjel
      have hjid : j.id = jid0 := honly j hjmem hjp
      right; left
      refine ⟨i, hi, ?_, ?_, hpend, honly, ?_⟩
      · left
        dsimp only
        rw [updWS_same, hjid]
      · intro k hk
        dsimp only
        rw [updWS_ne _ _ _ _ hk, hall k]
        left
        rfl
      · dsimp only
        rw [hlk, hjid]
  · obtain ⟨hc2, hwc, hidle, hpend, honly, hlk⟩ := hB
    by_cases hic : i = c
    · subst hic
      rcases hwc with hw1 | hw2
      · unfold stepWorker
        rw [hw1]
        dsimp only
        right; left
        refine ⟨i, hc2, Or.inr ?_, ?_, hpend, honly, hlk⟩
        · dsimp only
          rw [updWS_same]
        · intro k hk
          dsimp only
          rw [updWS_ne _ _ _ _ hk]
          exact hidle k hk
      · unfold stepWorker
        rw [hw2]
        dsimp only
        right; right
        refine ⟨i, hc2, ?_, ?_, ?_, ?_, ?_⟩
        · dsimp only
          rw [updWS_same]
        · intro k hk
          dsimp only
          rw [updWS_ne _ _ _ _ hk]
          exact hidle k hk
        · exact pendingRow_to_processing hpend
        · intro x hx
          obtain ⟨b, hb, rfl⟩ := List.mem_map.mp hx
          by_cases hbe : b.id = jid0
          · rw [if_pos hbe]
            simp
          · rw [if_neg hbe]
            intro hbp
            exact hbe (honly b hb hbp)
        · dsimp only
          rw [hlk]
          simp
    · have hidlei := hidle i (fun he => hic he)
      have hci : c ≠ i := fun he => hic he.symm
      rcases hidlei with hr | hds | hcm
      · unfold stepWorker
        rw [hr]
        dsimp only
        cases hsel : selectOldest (claimEligible s.locks i) s.jobs with
        | some j =>
          exfalso
          obtain ⟨hjmem, hjel⟩ := selectOldest_eq_some hsel
          obtain ⟨hjp, hjnl⟩ := claimEligible_spec hjel
          have hjid : j.id = jid0 := honly j hjmem hjp
          rw [hlk, hjid] at hjnl
          simp [lockedByOther] at hjnl
          exact hic hjnl.symm
        | none =>
          right; left
          refine ⟨c, hc2, ?_, ?_, hpend, honly, hlk⟩
          · dsimp only
            rw [updWS_ne _ _ _ _ hci]
            exact hwc
          · intro k hk
            dsimp only
            by_cases hki : k = i
            · subst hki
              rw [updWS_same]
              right; left
              rfl
            · rw [updWS_ne _ _ _ _ hki]
              exact hidle k hk
      · unfold stepWorker
        rw [hds]
        dsimp only
        right; left
        refine ⟨c, hc2, ?_, ?_, hpend, honly, ?_⟩
        · dsimp only
          rw [updWS_ne _ _ _ _ hci]
          exact hwc
        · intro k hk
          dsimp only
          by_cases hki : k = i
          · subst hki
            rw [updWS_same]
            right; right
            rfl
          · rw [updWS_ne _ _ _ _ hki]
            exact hidle k hk
        · dsimp only
          rw [hlk]
          have hcne : (c != i) = true := by simpa using hci
          simp [List.filter, hcne]
      · unfold stepWorker
        rw [hcm]
        dsimp only
        exact Or.inr (Or.inl ⟨c, hc2, hwc, hidle, hpend, honly, hlk⟩)
  · obtain ⟨hc2, hwc, hidle, hproc, hnop, hlk⟩ := hC
    by_cases hic : i = c
    · subst hic
      unfold stepWorker
      rw [hwc]
      dsimp only
      exact Or.inr (Or.inr ⟨i, hc2, hwc, hidle, hproc, hnop, hlk⟩)
    · have hidlei := hidle i (fun he => hic he)
      have hci : c ≠ i := fun he => hic he.symm
      rcases hidlei with hr | hds | hcm
      · unfold stepWorker
        rw [hr]
        dsimp only
        cases hsel : selectOldest (claimEligible s.locks i) s.jobs with
        | some j =>
          exfalso
          obtain ⟨hjmem, hjel⟩ := selectOldest_eq_some hsel
          obtain ⟨hjp, -⟩ := claimEligible_spec hjel
          exact hnop j hjmem hjp
        | none =>
          right; right
          refine ⟨c, hc2, ?_, ?_, hproc, hnop, hlk⟩
          · dsimp only
            rw [updWS_ne _ _ _ _ hci]
            exact hwc
          · intro k hk
            dsimp only
            by_cases hki : k = i
            · subst hki
              rw [updWS_same]
              right; left
              rfl
            · rw [updWS_ne _ _ _ _ hki]
              exact hidle k hk
      · unfold stepWorker
        rw [hds]
        dsimp only
        right; right
        refine ⟨c, hc2, ?_, ?_, hproc, hnop, ?_⟩
        · dsimp only
          rw [updWS_ne _ _ _ _ hci]
          exact hwc
        · intro k hk
          dsimp only
          by_cases hki : k = i
          · subst hki
            rw [updWS_same]
            right; right
            rfl
          · rw [updWS_ne _ _ _ _ hki]
            exact hidle k hk
        · dsimp only
          rw [hlk]
          rfl
      · unfold stepWorker
        rw [hcm]
        dsimp only
        exact Or.inr (Or.inr ⟨c, hc2, hwc, hidle, hproc, hnop, hlk⟩)

theorem soleClaim_run (jid0 : Nat) :
    ∀ sched : List Nat, (∀ i ∈ sched, i < 2) →
      ∀ s, soleClaim jid0 s → soleClaim jid0 (runSched s sched) := by
  intro sched
  induction sched with
  | nil => exact fun _ s h => h
  | cons c rest ih =>
    intro hs s h
    exact ih (fun i hi => hs i (List.mem_cons_of_mem _ hi)) _
      (soleClaim_step jid0 s c (hs c (List.mem_cons_self _ _)) h)

/-- C1: under any interleaving of the atomic steps of any number of
concurrently running claim transactions over a shared table with
distinct row ids, no two transactions ever select (and go on to mark
processing) the same row; and when the table holds exactly one pending
row and exactly two claimers run, once both transactions have
committed, exactly one of them holds that row and the other holds
none. -/
theorem claim_transactions_mutually_exclusive (jobs0 : List Job) (sched : List Nat)
    (hnd : (jobs0.map Job.id).Nodup) :
    (∀ i k a, i ≠ k →
      ((runSched (initSys jobs0) sched).ws i).sel = some a →
      ((runSched (initSys jobs0) sched).ws k).sel = some a → False) ∧
    (∀ jid0, pendingRow jobs0 jid0 → onlyPendingIs jid0 jobs0 →
      (∀ i ∈ sched, i < 2) →
      ((runSched (initSys jobs0) sched).ws 0).pc = .committed →
      ((runSched (initSys jobs0) sched).ws 1).pc = .committed →
      (((runSched (initSys jobs0) sched).ws 0).sel = some jid0 ∧
        ((runSched (initSys jobs0) sched).ws 1).sel = none) ∨
      (((runSched (initSys jobs0) sched).ws 0).sel = none ∧
        ((runSched (initSys jobs0) sched).ws 1).sel = some jid0)) := by
  constructor
  · intro i k a hik hx hy
    exact (sysInv_runSched jobs0 sched hnd).2.2 i k a hik hx hy
  · intro jid0 hpend honly hs h0 h1
    have hinit : soleClaim jid0 (initSys jobs0) :=
      Or.inl ⟨fun k => rfl, hpend, honly, rfl⟩
    have hfin := soleClaim_run jid0 sched hs _ hinit
    rcases hfin with hA | ⟨c, hB⟩ | ⟨c, hC⟩
    · rw [hA.1 0] at h0
      exact absurd h0 (by simp)
    · exfalso
      obtain ⟨hc2, hwc, -, -, -, -⟩ := hB
      have hcc : c = 0 ∨ c = 1 := by omega
      rcases hwc with hw' | hw' <;> rcases hcc with rfl | rfl
      · rw [hw'] at h0; simp at h0
      · rw [hw'] at h1; simp at h1
      · rw [hw'] at h0; simp at h0
      · rw [hw'] at h1; simp at h1
    · obtain ⟨hc2, hwc, hidle, -, -, -⟩ := hC
      have hcc : c = 0 ∨ c = 1 := by omega
      rcases hcc with rfl | rfl
      · left
        constructor
        · rw [hwc]
        · have hi1 := hidle 1 (by decide)
          rcases hi1 with h' | h' | h'
          · rw [h'] at h1; simp at h1
          · rw [h'] at h1; simp at h1
          · rw [h']
      · right
        constructor
        · have hi0 := hidle 0 (by decide)
          rcases hi0 with h' | h' | h'
          · rw [h'] at h0; simp at h0
          · rw [h'] at h0; simp at h0
          · rw [h']
        · rw [hwc]

/-- Witness for C1: two workers racing over two pending rows end up with
different rows (worker 1 does not get row 1, which worker 0 claimed);
and in the one-pending-row race (worker 0 runs its whole transaction,
then worker 1), worker 0 ends committed holding row 1 while worker 1
ends committed holding nothing. -/
theorem claim_transactions_mutually_exclusive_witness :
    (((runSched (initSys [⟨1, "prompt1", .pending, .null, none, none, 0, none⟩,
        ⟨2, "prompt1", .pending, .null, none, none, 0, none⟩])
        [0, 0, 0, 1, 1, 1]).ws 1).sel ≠ some 1) ∧
    ((((runSched (initSys [⟨1, "prompt1", .pending, .null, none, none, 0, none⟩])
        [0, 0, 0, 1, 1]).ws 0).sel = some 1 ∧
      ((runSched (initSys [⟨1, "prompt1", .pending, .null, none, none, 0, none⟩])
        [0, 0, 0, 1, 1]).ws 1).sel = none) ∨
     (((runSched (initSys [⟨1, "prompt1", .pending, .null, none, none, 0, none⟩])
        [0, 0, 0, 1, 1]).ws 0).sel = none ∧
      ((runSched (initSys [⟨1, "prompt1", .pending, .null, none, none, 0, none⟩])
        [0, 0, 0, 1, 1]).ws 1).sel = some 1)) := by
  constructor
  · intro hcon
    exact (claim_transactions_mutually_exclusive
      [⟨1, "prompt1", .pending, .null, none, none, 0, none⟩,
       ⟨2, "prompt1", .pending, .null, none, none, 0, none⟩]
      [0, 0, 0, 1, 1, 1] (by decide)).1 0 1 1 (by decide) rfl hcon
  · exact (claim_transactions_mutually_exclusive
      [⟨1, "prompt1", .pending, .null, none, none, 0, none⟩]
      [0, 0, 0, 1, 1] (by decide)).2 1
      ⟨⟨1, "prompt1", .pending, .null, none, none, 0, none⟩,
        List.mem_singleton_self _, rfl, rfl⟩
      (by
        intro j hj _
        rw [List.mem_singleton.mp hj])
      (by decide) rfl rfl

end EvalPlanner
